import Mathlib

/-
Verification development for the multi-axis tensor reverse operator
(paddle/fluid/operators/reverse_op.cc): shape and attribute validation,
variable-type inference, gradient-op construction, and the kernel
semantics of flipping a dense tensor along a set of axes.
-/

namespace PaddleReverse

/-- Container variant kinds relevant to the validator: `ReverseOp::InferShape`
only tests whether the input variable is a `LOD_TENSOR_ARRAY`; every other
variant kind takes the dense-tensor branch. -/
inductive VarType where
  | lodTensor
  | lodTensorArray
deriving DecidableEq, Repr

/-- Error taxonomy classes: missing-binding, invalid-argument, out-of-range. -/
inductive ErrKind where
  | missingBinding
  | invalidArgument
  | outOfRange
deriving DecidableEq, Repr

/-- Concrete validation errors raised by `ReverseOp::InferShape`, carrying the
literal offending values that the diagnostic messages embed. -/
inductive ShapeError where
  | missingBinding (name : String)
  | axisEmptyForTensor
  | axisSizeNotOne (sz : Nat)
  | axisValueNotZero (v : Int)
  | axisGeRank (a rank : Int)
  | axisLtNegRank (a negRank : Int)
deriving DecidableEq, Repr

/-- Classification of each concrete error into the error taxonomy. -/
def ShapeError.kind : ShapeError → ErrKind
  | .missingBinding _ => .missingBinding
  | .axisEmptyForTensor => .invalidArgument
  | .axisSizeNotOne _ => .invalidArgument
  | .axisValueNotZero _ => .invalidArgument
  | .axisGeRank _ _ => .outOfRange
  | .axisLtNegRank _ _ => .outOfRange

/-- The `InferShapeContext` slice that `ReverseOp::InferShape` consumes:
presence of the named input and output, the variant kind of `X`, the `axis`
attribute, the dims of `X`, and the runtime-vs-buildtime flag. -/
structure InferShapeCtx where
  hasInputX : Bool
  hasOutputOut : Bool
  xVarType : VarType
  axis : List Int
  xDims : List Int
  isRuntime : Bool
deriving DecidableEq, Repr

/-- The per-entry loop of the dense branch: for each `a` in `axis`,
`PADDLE_ENFORCE_LT(a, rank)` fires first (reporting `a >= rank`), then
`PADDLE_ENFORCE_GE(a, -rank)` (reporting `a < -rank`).  Returns the first
error, or `none` when every entry passes. -/
def checkAxisEntries (rank : Int) : List Int → Option ShapeError
  | [] => none
  | a :: rest =>
    if rank ≤ a then some (.axisGeRank a rank)
    else if a < -rank then some (.axisLtNegRank a (-rank))
    else checkAxisEntries rank rest

/-- Shallow embedding of `ReverseOp::InferShape`.  Returns the assigned
output dim on success (`none` when no dim is set, which happens only in the
runtime TensorList branch), or the first validation error. -/
def inferShape (ctx : InferShapeCtx) : Except ShapeError (Option (List Int)) :=
  if ctx.hasInputX = false then .error (.missingBinding "X")
  else if ctx.hasOutputOut = false then .error (.missingBinding "Out")
  else if ctx.xVarType = .lodTensorArray then
    if ctx.axis.length ≠ 1 then .error (.axisSizeNotOne ctx.axis.length)
    else if ctx.axis.headD 0 ≠ 0 then .error (.axisValueNotZero (ctx.axis.headD 0))
    else if ctx.isRuntime = false then .ok (some ctx.xDims)
    else .ok none
  else
    if ctx.axis.isEmpty then .error .axisEmptyForTensor
    else
      match checkAxisEntries (ctx.xDims.length : Int) ctx.axis with
      | some e => .error e
      | none => .ok (some ctx.xDims)

/-- Whether a validation run succeeded (no enforce fired). -/
def accepts (r : Except ShapeError (Option (List Int))) : Bool :=
  match r with
  | .ok _ => true
  | .error _ => false

theorem checkAxisEntries_eq_none_iff (rank : Int) (axis : List Int) :
    checkAxisEntries rank axis = none ↔ ∀ a ∈ axis, -rank ≤ a ∧ a < rank := by
  induction axis with
  | nil => simp [checkAxisEntries]
  | cons a rest ih =>
    simp only [checkAxisEntries, List.mem_cons]
    by_cases h1 : rank ≤ a
    · simp only [if_pos h1]
      constructor
      · intro h; cases h
      · intro h
        have := (h a (Or.inl rfl)).2
        omega
    · simp only [if_neg h1]
      by_cases h2 : a < -rank
      · simp only [if_pos h2]
        constructor
        · intro h; cases h
        · intro h
          have := (h a (Or.inl rfl)).1
          omega
      · simp only [if_neg h2, ih]
        constructor
        · intro h b hb
          rcases hb with hb | hb
          · subst hb; omega
          · exact h b hb
        · intro h b hb
          exact h b (Or.inr hb)

theorem checkAxisEntries_kind (rank : Int) (axis : List Int) (e : ShapeError)
    (h : checkAxisEntries rank axis = some e) : e.kind = .outOfRange := by
  induction axis with
  | nil => simp [checkAxisEntries] at h
  | cons a rest ih =>
    simp only [checkAxisEntries] at h
    by_cases h1 : rank ≤ a
    · simp only [if_pos h1, Option.some.injEq] at h
      subst h; rfl
    · simp only [if_neg h1] at h
      by_cases h2 : a < -rank
      · simp only [if_pos h2, Option.some.injEq] at h
        subst h; rfl
      · simp only [if_neg h2] at h
        exact ih h

/-- C1: for a dense Tensor input, `InferShape` accepts `axis` iff it is
non-empty and every entry `a` satisfies `-rank ≤ a < rank`; an empty `axis`
fails invalid-argument, an out-of-bounds entry fails out-of-range, and
duplicates within range are not rejected (acceptance depends only on
membership, as the witness with axis `[0, 0, -1]` shows). -/
theorem reverse_c1 (ax dims : List Int) (rt : Bool) :
    (accepts (inferShape ⟨true, true, .lodTensor, ax, dims, rt⟩) = true ↔
      (ax ≠ [] ∧ ∀ a ∈ ax, -(dims.length : Int) ≤ a ∧ a < (dims.length : Int)))
    ∧ (ax = [] →
        inferShape ⟨true, true, .lodTensor, ax, dims, rt⟩ = .error .axisEmptyForTensor)
    ∧ ((∃ a ∈ ax, (dims.length : Int) ≤ a ∨ a < -(dims.length : Int)) →
        ∃ e, inferShape ⟨true, true, .lodTensor, ax, dims, rt⟩ = .error e
          ∧ e.kind = .outOfRange)
    ∧ ShapeError.kind .axisEmptyForTensor = .invalidArgument := by
  refine ⟨?_, ?_, ?_, rfl⟩
  · by_cases hA : ax = []
    · simp [inferShape, hA, accepts]
    · simp only [inferShape]
      have hA2 : (List.isEmpty ax) = false := by simp [hA]
      simp only [hA2]
      cases h : checkAxisEntries (dims.length : Int) ax with
      | none =>
        have hall := (checkAxisEntries_eq_none_iff (dims.length : Int) ax).mp h
        simp only [h, accepts]
        exact ⟨fun _ => ⟨hA, hall⟩, fun _ => rfl⟩
      | some e =>
        simp only [accepts]
        constructor
        · intro hc
          simp at hc
        · intro hc
          rw [← checkAxisEntries_eq_none_iff] at hc
          rw [hc.2] at h
          cases h
  · intro hA
    simp [inferShape, hA]
  · intro ⟨a, ha, hbad⟩
    have hA : (List.isEmpty ax) = false := by
      cases ax with
      | nil => cases ha
      | cons x xs => rfl
    simp only [inferShape, hA]
    cases h : checkAxisEntries (dims.length : Int) ax with
    | none =>
      rw [checkAxisEntries_eq_none_iff] at h
      have := h a ha
      omega
    | some e =>
      refine ⟨e, ?_, checkAxisEntries_kind _ _ _ h⟩
      simp
/-- C1 witness: dims `[2,3]` with the duplicate-containing axis
`[0, 0, -1]` is accepted. -/
theorem reverse_c1_witness :
    accepts (inferShape ⟨true, true, .lodTensor, [0, 0, -1], [2, 3], true⟩) = true :=
  (reverse_c1 [0, 0, -1] [2, 3] true).1.mpr (by constructor <;> decide)

/-- C2: for a TensorList (`LOD_TENSOR_ARRAY`) input, `InferShape` fails
invalid-argument whenever `axis` does not have exactly one entry, fails
invalid-argument whenever the single entry is not `0`, and accepts exactly
the singleton `[0]`. -/
theorem reverse_c2 (ax dims : List Int) (rt : Bool) :
    (accepts (inferShape ⟨true, true, .lodTensorArray, ax, dims, rt⟩) = true ↔
      ax = [0])
    ∧ (ax.length ≠ 1 →
        inferShape ⟨true, true, .lodTensorArray, ax, dims, rt⟩
          = .error (.axisSizeNotOne ax.length)
        ∧ ShapeError.kind (.axisSizeNotOne ax.length) = .invalidArgument)
    ∧ (∀ a : Int, ax = [a] → a ≠ 0 →
        inferShape ⟨true, true, .lodTensorArray, ax, dims, rt⟩
          = .error (.axisValueNotZero a)
        ∧ ShapeError.kind (.axisValueNotZero a) = .invalidArgument) := by
  refine ⟨?_, ?_, ?_⟩
  · cases ax with
    | nil => simp [inferShape, accepts]
    | cons a rest =>
      cases rest with
      | nil =>
        by_cases h2 : a = 0
        · subst h2
          cases rt <;> simp [inferShape, accepts]
        · simp [inferShape, accepts, h2]
      | cons b rest2 => simp [inferShape, accepts]
  · intro h1
    exact ⟨by simp [inferShape, h1], rfl⟩
  · intro a ha h2
    subst ha
    exact ⟨by simp [inferShape, h2], rfl⟩

/-- C2 witness: the singleton axis `[0]` is accepted for a TensorList, and
the singleton axis `[1]` is rejected with the invalid-argument error that
carries the observed value `1`. -/
theorem reverse_c2_witness :
    accepts (inferShape ⟨true, true, .lodTensorArray, [0], [5], true⟩) = true
    ∧ inferShape ⟨true, true, .lodTensorArray, [1], [5], true⟩
        = .error (.axisValueNotZero 1) :=
  ⟨(reverse_c2 [0] [5] true).1.mpr rfl,
   ((reverse_c2 [1] [5] true).2.2 1 rfl (by decide)).1⟩

/-- C3: when validation succeeds for a dense Tensor the output dim is set
to the input dims; for a TensorList the input dims are propagated only at
graph-build time (runtime flag false) and no output dim is set at
runtime. -/
theorem reverse_c3 (ax dims : List Int) (rt : Bool) :
    (accepts (inferShape ⟨true, true, .lodTensor, ax, dims, rt⟩) = true →
        inferShape ⟨true, true, .lodTensor, ax, dims, rt⟩ = .ok (some dims))
    ∧ (accepts (inferShape ⟨true, true, .lodTensorArray, ax, dims, false⟩) = true →
        inferShape ⟨true, true, .lodTensorArray, ax, dims, false⟩ = .ok (some dims))
    ∧ (accepts (inferShape ⟨true, true, .lodTensorArray, ax, dims, true⟩) = true →
        inferShape ⟨true, true, .lodTensorArray, ax, dims, true⟩ = .ok none) := by
  refine ⟨?_, ?_, ?_⟩
  · intro hacc
    by_cases hA : ax = []
    · simp [inferShape, hA, accepts] at hacc
    · have hA2 : (List.isEmpty ax) = false := by simp [hA]
      cases h : checkAxisEntries (dims.length : Int) ax with
      | none => simp [inferShape, hA2, h]
      | some e => simp [inferShape, accepts, hA2, h] at hacc
  · intro hacc
    cases ax with
    | nil => simp [inferShape, accepts] at hacc
    | cons a rest =>
      cases rest with
      | nil =>
        by_cases h2 : a = 0
        · subst h2
          simp [inferShape]
        · simp [inferShape, accepts, h2] at hacc
      | cons b rest2 => simp [inferShape, accepts] at hacc
  · intro hacc
    cases ax with
    | nil => simp [inferShape, accepts] at hacc
    | cons a rest =>
      cases rest with
      | nil =>
        by_cases h2 : a = 0
        · subst h2
          simp [inferShape]
        · simp [inferShape, accepts, h2] at hacc
      | cons b rest2 => simp [inferShape, accepts] at hacc

/-- C3 witness: an accepted dense context receives its input dims `[2,3]`
as the output dim, and an accepted runtime TensorList context sets no
dim. -/
theorem reverse_c3_witness :
    inferShape ⟨true, true, .lodTensor, [1], [2, 3], true⟩ = .ok (some [2, 3])
    ∧ inferShape ⟨true, true, .lodTensorArray, [0], [2, 3], true⟩ = .ok none :=
  ⟨(reverse_c3 [1] [2, 3] true).1 (by decide),
   (reverse_c3 [0] [2, 3] true).2.2 (by decide)⟩

/-- C9: the missing-binding checks fire before any inspection of the axis
attribute or the variant kind: whenever `X` is unbound the result is the
missing-binding error for `X` no matter what the other context fields hold,
and whenever `X` is bound but `Out` is not, the result is the
missing-binding error for `Out`. -/
theorem reverse_c9 (hx ho : Bool) (vt : VarType) (ax dims : List Int) (rt : Bool) :
    (hx = false →
        inferShape ⟨hx, ho, vt, ax, dims, rt⟩ = .error (.missingBinding "X"))
    ∧ (hx = true → ho = false →
        inferShape ⟨hx, ho, vt, ax, dims, rt⟩ = .error (.missingBinding "Out")) := by
  constructor
  · intro h
    subst h
    simp [inferShape]
  · intro h1 h2
    subst h1
    subst h2
    simp [inferShape]

/-- C9 witness: with `X` unbound but every other field well-formed, the
validator reports the missing binding for `X`. -/
theorem reverse_c9_witness :
    inferShape ⟨false, true, .lodTensor, [0], [2, 3], true⟩
      = .error (.missingBinding "X") :=
  (reverse_c9 false true .lodTensor [0] [2, 3] true).1 rfl

/-- C10: a rank-0 dense Tensor never passes validation: an empty axis fails
invalid-argument, and any entry of a non-empty axis violates the bound
checks (it cannot be both below 0 and at least 0), failing out-of-range. -/
theorem reverse_c10 (ax : List Int) (rt : Bool) :
    accepts (inferShape ⟨true, true, .lodTensor, ax, [], rt⟩) = false
    ∧ (ax = [] →
        inferShape ⟨true, true, .lodTensor, ax, [], rt⟩ = .error .axisEmptyForTensor)
    ∧ (ax ≠ [] →
        ∃ e, inferShape ⟨true, true, .lodTensor, ax, [], rt⟩ = .error e
          ∧ e.kind = .outOfRange) := by
  refine ⟨?_, ?_, ?_⟩
  · cases ax with
    | nil => simp [inferShape, accepts]
    | cons a rest =>
      by_cases hp : (0 : Int) ≤ a
      · simp [inferShape, accepts, checkAxisEntries, hp]
      · have hn : a < (0 : Int) := by omega
        simp [inferShape, accepts, checkAxisEntries, hp, hn]
  · intro hA
    simp [inferShape, hA]
  · intro hne
    cases ax with
    | nil => exact absurd rfl hne
    | cons a rest =>
      by_cases hp : (0 : Int) ≤ a
      · exact ⟨.axisGeRank a 0, by simp [inferShape, checkAxisEntries, hp], rfl⟩
      · have hn : a < (0 : Int) := by omega
        exact ⟨.axisLtNegRank a 0, by simp [inferShape, checkAxisEntries, hp, hn], rfl⟩

/-- C10 witness: with rank-0 dims `[]`, the axis `[0]` is rejected and the
empty axis is rejected with the invalid-argument error. -/
theorem reverse_c10_witness :
    accepts (inferShape ⟨true, true, .lodTensor, [0], [], true⟩) = false
    ∧ inferShape ⟨true, true, .lodTensor, [], [], true⟩
        = .error .axisEmptyForTensor :=
  ⟨(reverse_c10 [0] true).1, (reverse_c10 [] true).2.1 rfl⟩

/-- A backward operator description under construction, as filled in by the
fluent `GradOpPtr` setters used in `ReverseGradMaker::Apply`: an op type,
named input slots, named output slots, and named attributes. -/
structure GradOpDesc where
  opType : String
  inputs : List (String × List String)
  outputs : List (String × List String)
  attrs : List (String × List Int)
deriving DecidableEq, Repr

/-- The empty description handed to `Apply` by `SingleGradOpMaker`. -/
def emptyGradOp : GradOpDesc := ⟨"", [], [], []⟩

/-- `grad_op->SetType(t)`. -/
def setType (d : GradOpDesc) (t : String) : GradOpDesc := { d with opType := t }

/-- `grad_op->SetInput(name, args)`. -/
def setInput (d : GradOpDesc) (name : String) (args : List String) : GradOpDesc :=
  { d with inputs := d.inputs ++ [(name, args)] }

/-- `grad_op->SetOutput(name, args)`. -/
def setOutput (d : GradOpDesc) (name : String) (args : List String) : GradOpDesc :=
  { d with outputs := d.outputs ++ [(name, args)] }

/-- `grad_op->SetAttr(name, v)`. -/
def setAttr (d : GradOpDesc) (name : String) (v : List Int) : GradOpDesc :=
  { d with attrs := d.attrs ++ [(name, v)] }

/-- What `ReverseGradMaker` reads from the forward operator: the gradient
names of the forward output `Out`, the gradient slot names of the forward
input `X`, and the forward `axis` attribute. -/
structure GradMakerCtx where
  outputGradOut : List String
  inputGradX : List String
  fwdAxis : List Int
deriving DecidableEq, Repr

/-- Shallow embedding of `ReverseGradMaker::Apply`: starting from the empty
description, set the type to `reverse`, input `X` to the gradient of `Out`,
output `Out` to the gradient slot of `X`, and `axis` to the forward axis. -/
def reverseGradMakerApply (c : GradMakerCtx) : GradOpDesc :=
  setAttr
    (setOutput
      (setInput (setType emptyGradOp "reverse") "X" c.outputGradOut)
      "Out" c.inputGradX)
    "axis" c.fwdAxis

/-- C4: for every forward reverse operator, the gradient builder emits
exactly one backward node of type `reverse`, whose sole input slot `X`
holds the gradient of the forward output `Out`, whose sole output slot
`Out` holds the gradient slot of the forward input `X`, and whose sole
attribute is the forward `axis` unchanged. -/
theorem reverse_c4 (c : GradMakerCtx) :
    reverseGradMakerApply c =
      { opType := "reverse"
        inputs := [("X", c.outputGradOut)]
        outputs := [("Out", c.inputGradX)]
        attrs := [("axis", c.fwdAxis)] } := rfl

/-- Element dtypes supported by the operator. -/
inductive DataType where
  | int32
  | uint8
  | int64
  | boolean
  | float32
  | float64
deriving DecidableEq, Repr

/-- Metadata fields of one variable binding, as seen through an
`InferVarTypeContext`: the container variant kind, the element dtype, and
further fields (dims, level-of-detail level) that `ReverseOpVarTypeInference`
must leave untouched. -/
structure VarInfo where
  varType : VarType
  dataType : DataType
  dims : List Int
  lodLevel : Nat
deriving DecidableEq, Repr

/-- The `InferVarTypeContext` slice the inferencer consumes: the variable
name bound to input slot `X`, the name bound to output slot `Out`, and the
metadata of every variable. -/
structure InferVarTypeCtx where
  xName : String
  outName : String
  vars : String → VarInfo

/-- `ctx->GetInputType("X")`. -/
def getInputType (c : InferVarTypeCtx) : VarType := (c.vars c.xName).varType

/-- `ctx->GetInputDataType("X")`. -/
def getInputDataType (c : InferVarTypeCtx) : DataType := (c.vars c.xName).dataType

/-- `ctx->SetOutputType("Out", t)`: update only the variant kind of the
variable bound to `Out`. -/
def setOutputType (c : InferVarTypeCtx) (t : VarType) : InferVarTypeCtx :=
  { c with vars := fun n => if n = c.outName then { c.vars n with varType := t } else c.vars n }

/-- `ctx->SetOutputDataType("Out", t)`: update only the dtype of the
variable bound to `Out`. -/
def setOutputDataType (c : InferVarTypeCtx) (t : DataType) : InferVarTypeCtx :=
  { c with vars := fun n => if n = c.outName then { c.vars n with dataType := t } else c.vars n }

/-- Shallow embedding of `ReverseOpVarTypeInference::operator()`: copy the
variant kind of `X` onto `Out`, then copy the dtype of `X` onto `Out`. -/
def reverseOpVarTypeInference (c : InferVarTypeCtx) : InferVarTypeCtx :=
  let c1 := setOutputType c (getInputType c)
  setOutputDataType c1 (getInputDataType c1)

/-- C5: the variable-type inferencer copies the variant kind and the dtype
of `X` onto `Out`, leaves the remaining fields of the `Out` binding (dims,
level-of-detail level) unchanged, leaves every other binding entirely
unchanged, and does not remap the slot names. -/
theorem reverse_c5 (c : InferVarTypeCtx) :
    ((reverseOpVarTypeInference c).vars c.outName).varType = (c.vars c.xName).varType
    ∧ ((reverseOpVarTypeInference c).vars c.outName).dataType = (c.vars c.xName).dataType
    ∧ ((reverseOpVarTypeInference c).vars c.outName).dims = (c.vars c.outName).dims
    ∧ ((reverseOpVarTypeInference c).vars c.outName).lodLevel = (c.vars c.outName).lodLevel
    ∧ (∀ n, n ≠ c.outName → (reverseOpVarTypeInference c).vars n = c.vars n)
    ∧ (reverseOpVarTypeInference c).xName = c.xName
    ∧ (reverseOpVarTypeInference c).outName = c.outName := by
  refine ⟨?_, ?_, ?_, ?_, ?_, rfl, rfl⟩
  · by_cases h : c.xName = c.outName <;>
      simp [reverseOpVarTypeInference, setOutputType, setOutputDataType,
        getInputType, getInputDataType, h]
  · by_cases h : c.xName = c.outName <;>
      simp [reverseOpVarTypeInference, setOutputType, setOutputDataType,
        getInputType, getInputDataType, h]
  · by_cases h : c.xName = c.outName <;>
      simp [reverseOpVarTypeInference, setOutputType, setOutputDataType,
        getInputType, getInputDataType, h]
  · by_cases h : c.xName = c.outName <;>
      simp [reverseOpVarTypeInference, setOutputType, setOutputDataType,
        getInputType, getInputDataType, h]
  · intro n hn
    simp [reverseOpVarTypeInference, setOutputType, setOutputDataType,
      getInputType, getInputDataType, hn]

/-- C5 witness: on a context binding `X` to a float32 LoDTensorArray named
`x` and `Out` to a variable named `out`, the inferencer copies kind and
dtype onto `out` and leaves the unrelated variable `z` unchanged. -/
theorem reverse_c5_witness :
    ((reverseOpVarTypeInference
        ⟨"x", "out", fun n =>
          if n = "x" then ⟨.lodTensorArray, .float32, [3], 1⟩
          else ⟨.lodTensor, .int64, [7], 0⟩⟩).vars "z")
      = ⟨.lodTensor, .int64, [7], 0⟩ := by
  have h := (reverse_c5
    ⟨"x", "out", fun n =>
      if n = "x" then ⟨.lodTensorArray, .float32, [3], 1⟩
      else ⟨.lodTensor, .int64, [7], 0⟩⟩).2.2.2.2.1 "z" (by decide)
  rw [h]
  decide

/-- Whether an index tuple lies inside a shape: same length, each component
below the corresponding extent. -/
def validIndex : List Nat → List Nat → Bool
  | [], [] => true
  | e :: es, j :: js => decide (j < e) && validIndex es js
  | _, _ => false

/-- Row-major flat position of an index tuple inside a shape. -/
def flatten : List Nat → List Nat → Nat
  | _ :: es, j :: js => j * es.prod + flatten es js
  | _, _ => 0

/-- Index tuple of a row-major flat position inside a shape. -/
def unflatten : List Nat → Nat → List Nat
  | [], _ => []
  | _ :: es, p => p / es.prod :: unflatten es (p % es.prod)

/-- Modelled from the spec: normalization of one axis entry used by the
kernel semantics (the `ReverseKernel` body in reverse_op.h is not part of
the sources), `a < 0 ? a + rank : a`. -/
def normAxis (rank : Nat) (a : Int) : Int :=
  if a < 0 then a + rank else a

/-- Modelled from the spec: flip an index tuple along the axis set `A`
(already normalized), starting at axis position `k`: component `k` becomes
`extent − 1 − j` when `k ∈ A` and stays `j` otherwise. -/
def flipIndex (A : List Int) : Nat → List Nat → List Nat → List Nat
  | _, _, [] => []
  | _, [], _ :: _ => []
  | k, e :: es, j :: js =>
    (if (k : Int) ∈ A then e - 1 - j else j) :: flipIndex A (k + 1) es js

/-- Modelled from the spec: kernel semantics of the dense-tensor
`ReverseKernel` (reverse_op.h, not in the sources) on the flat row-major
buffer: the output value at flat position `p` is the input value at the
index obtained by flipping the components of `p` along `A`. -/
def reverseData {α : Type} [Inhabited α] (shape : List Nat) (A : List Int)
    (data : List α) : List α :=
  (List.range shape.prod).map fun p =>
    data.getD (flatten shape (flipIndex A 0 shape (unflatten shape p))) default

/-- A dense tensor: shape, flat row-major buffer, and per-row
level-of-detail metadata. -/
structure Tensor (α : Type) where
  shape : List Nat
  data : List α
  lod : List (List Nat)
deriving DecidableEq, Repr

/-- A tensor is well-formed when its buffer holds exactly one value per
index tuple of its shape. -/
def wellFormed {α : Type} (T : Tensor α) : Prop :=
  T.data.length = T.shape.prod

/-- Modelled from the spec: the dense-tensor reverse operator (the
`ReverseKernel` in reverse_op.h is not in the sources): normalize each axis
entry, flip the buffer along the resulting axis set, keep shape and
level-of-detail metadata unchanged. -/
def reverseT {α : Type} [Inhabited α] (T : Tensor α) (axis : List Int) : Tensor α :=
  { shape := T.shape
    data := reverseData T.shape (axis.map (normAxis T.shape.length)) T.data
    lod := T.lod }

/-- Symmetric difference of two axis lists: entries of each list absent
from the other. -/
def symDiff (A B : List Int) : List Int :=
  A.filter (fun a => decide (a ∉ B)) ++ B.filter (fun b => decide (b ∉ A))

theorem flatten_lt_prod (sh i : List Nat) (h : validIndex sh i = true) :
    flatten sh i < sh.prod := by
  induction sh generalizing i with
  | nil =>
    cases i with
    | nil => simp [flatten]
    | cons j js => simp [validIndex] at h
  | cons e es ih =>
    cases i with
    | nil => simp [validIndex] at h
    | cons j js =>
      simp only [validIndex, Bool.and_eq_true, decide_eq_true_eq] at h
      have hf := ih js h.2
      have : j * es.prod + flatten es js < (j + 1) * es.prod := by
        rw [Nat.succ_mul]
        omega
      calc flatten (e :: es) (j :: js) = j * es.prod + flatten es js := rfl
        _ < (j + 1) * es.prod := this
        _ ≤ e * es.prod := Nat.mul_le_mul_right _ h.1
        _ = (e :: es).prod := by simp [List.prod_cons]

theorem validIndex_unflatten (sh : List Nat) (p : Nat) (h : p < sh.prod) :
    validIndex sh (unflatten sh p) = true := by
  induction sh generalizing p with
  | nil => simp [unflatten, validIndex]
  | cons e es ih =>
    simp only [List.prod_cons] at h
    have hm : 0 < es.prod := by
      by_contra hc
      push_neg at hc
      interval_cases m : es.prod
      omega
    simp only [unflatten, validIndex, Bool.and_eq_true, decide_eq_true_eq]
    constructor
    · rw [Nat.div_lt_iff_lt_mul hm]
      omega
    · exact ih _ (Nat.mod_lt _ hm)

theorem unflatten_flatten (sh i : List Nat) (h : validIndex sh i = true) :
    unflatten sh (flatten sh i) = i := by
  induction sh generalizing i with
  | nil =>
    cases i with
    | nil => rfl
    | cons j js => simp [validIndex] at h
  | cons e es ih =>
    cases i with
    | nil => simp [validIndex] at h
    | cons j js =>
      simp only [validIndex, Bool.and_eq_true, decide_eq_true_eq] at h
      have hf := flatten_lt_prod es js h.2
      have hm : 0 < es.prod := by omega
      simp only [flatten, unflatten]
      have hdiv : (j * es.prod + flatten es js) / es.prod = j := by
        rw [Nat.add_comm, Nat.add_mul_div_right _ _ hm, Nat.div_eq_of_lt hf]
        omega
      have hmod : (j * es.prod + flatten es js) % es.prod = flatten es js := by
        rw [Nat.add_comm, Nat.add_mul_mod_self_right, Nat.mod_eq_of_lt hf]
      rw [hdiv, hmod, ih js h.2]

theorem flatten_unflatten (sh : List Nat) (p : Nat) (h : p < sh.prod) :
    flatten sh (unflatten sh p) = p := by
  induction sh generalizing p with
  | nil =>
    simp only [List.prod_nil, Nat.lt_one_iff] at h
    simp [unflatten, flatten, h]
  | cons e es ih =>
    simp only [List.prod_cons] at h
    have hm : 0 < es.prod := by
      rcases Nat.eq_zero_or_pos es.prod with h0 | h0
      · rw [h0, Nat.mul_zero] at h
        omega
      · exact h0
    simp only [unflatten, flatten]
    rw [ih _ (Nat.mod_lt _ hm)]
    exact Nat.div_add_mod' p es.prod

theorem validIndex_flipIndex (A : List Int) (sh i : List Nat) (k : Nat)
    (h : validIndex sh i = true) :
    validIndex sh (flipIndex A k sh i) = true := by
  induction sh generalizing i k with
  | nil =>
    cases i with
    | nil => rfl
    | cons j js => simp [validIndex] at h
  | cons e es ih =>
    cases i with
    | nil => simp [validIndex] at h
    | cons j js =>
      simp only [validIndex, Bool.and_eq_true, decide_eq_true_eq] at h
      simp only [flipIndex, validIndex, Bool.and_eq_true, decide_eq_true_eq]
      refine ⟨?_, ih js (k + 1) h.2⟩
      by_cases hk : (k : Int) ∈ A <;> simp [hk] <;> omega

theorem flipIndex_flipIndex (A : List Int) (sh i : List Nat) (k : Nat)
    (h : validIndex sh i = true) :
    flipIndex A k sh (flipIndex A k sh i) = i := by
  induction sh generalizing i k with
  | nil =>
    cases i with
    | nil => rfl
    | cons j js => simp [validIndex] at h
  | cons e es ih =>
    cases i with
    | nil => simp [validIndex] at h
    | cons j js =>
      simp only [validIndex, Bool.and_eq_true, decide_eq_true_eq] at h
      simp only [flipIndex]
      refine congrArg₂ _ ?_ (ih js (k + 1) h.2)
      by_cases hk : (k : Int) ∈ A <;> simp [hk] <;> omega

theorem getD_range_map {β : Type} (n : Nat) (f : Nat → β) (d : β) (p : Nat)
    (hp : p < n) : ((List.range n).map f).getD p d = f p := by
  rw [List.getD_eq_getElem?_getD]
  simp [List.getElem?_map, List.getElem?_range hp]

theorem reverseData_getD {α : Type} [Inhabited α] (shape : List Nat) (A : List Int)
    (data : List α) (p : Nat) (hp : p < shape.prod) :
    (reverseData shape A data).getD p default
      = data.getD (flatten shape (flipIndex A 0 shape (unflatten shape p))) default := by
  unfold reverseData
  exact getD_range_map _ _ _ _ hp

theorem reverseData_length {α : Type} [Inhabited α] (shape : List Nat) (A : List Int)
    (data : List α) : (reverseData shape A data).length = shape.prod := by
  simp [reverseData]

theorem map_range_getD {α : Type} [Inhabited α] (data : List α) :
    (List.range data.length).map (fun p => data.getD p default) = data := by
  apply List.ext_getElem
  · simp
  · intro p hp hq
    simp only [List.getElem_map, List.getElem_range]
    rw [List.getD_eq_getElem?_getD, List.getElem?_eq_getElem hq]
    rfl

theorem reverseData_reverseData {α : Type} [Inhabited α] (shape : List Nat) (A B : List Int)
    (data : List α) :
    reverseData shape B (reverseData shape A data)
      = (List.range shape.prod).map fun p =>
          data.getD (flatten shape (flipIndex A 0 shape
            (flipIndex B 0 shape (unflatten shape p)))) default := by
  apply List.ext_getElem
  · simp [reverseData]
  · intro p hp hq
    have hp2 : p < shape.prod := by simpa using hq
    have hvi := validIndex_unflatten shape p hp2
    have hv2 := validIndex_flipIndex B shape _ 0 hvi
    have hlt := flatten_lt_prod shape _ hv2
    simp only [reverseData, List.getElem_map, List.getElem_range]
    rw [getD_range_map _ _ _ _ hlt, unflatten_flatten shape _ hv2]

theorem normAxis_map_id (r : Nat) (L : List Int) (h : ∀ a ∈ L, 0 ≤ a) :
    L.map (normAxis r) = L := by
  induction L with
  | nil => rfl
  | cons a rest ih =>
    rw [List.map_cons, ih (fun b hb => h b (List.mem_cons_of_mem a hb))]
    have h0 : ¬ a < 0 := by
      have := h a (List.mem_cons_self a rest)
      omega
    congr 1
    simp [normAxis, h0]

theorem mem_symDiff (A B : List Int) (k : Int) :
    k ∈ symDiff A B ↔ (k ∈ A ∧ k ∉ B) ∨ (k ∈ B ∧ k ∉ A) := by
  simp [symDiff, List.mem_append, List.mem_filter]

theorem flipIndex_comp (A B C : List Int)
    (hmem : ∀ k : Int, (k ∈ C) ↔ (k ∈ A ∨ k ∈ B))
    (hdisj : ∀ k : Int, ¬(k ∈ A ∧ k ∈ B)) :
    ∀ (sh i : List Nat) (k : Nat), validIndex sh i = true →
      flipIndex A k sh (flipIndex B k sh i) = flipIndex C k sh i := by
  intro sh
  induction sh with
  | nil =>
    intro i k h
    cases i with
    | nil => rfl
    | cons j js => simp [validIndex] at h
  | cons e es ih =>
    intro i k h
    cases i with
    | nil => simp [validIndex] at h
    | cons j js =>
      simp only [validIndex, Bool.and_eq_true, decide_eq_true_eq] at h
      simp only [flipIndex]
      refine congrArg₂ _ ?_ (ih js (k + 1) h.2)
      by_cases ha : (k : Int) ∈ A
      · have hb : (k : Int) ∉ B := fun hb => hdisj k ⟨ha, hb⟩
        have hc : (k : Int) ∈ C := (hmem k).mpr (Or.inl ha)
        simp [ha, hb, hc]
      · by_cases hb : (k : Int) ∈ B
        · have hc : (k : Int) ∈ C := (hmem k).mpr (Or.inr hb)
          simp [ha, hb, hc]
        · have hc : (k : Int) ∉ C := by
            intro hh
            rcases (hmem k).mp hh with hx | hx
            · exact ha hx
            · exact hb hx
          simp [ha, hb, hc]

/-- C6: for every well-formed input tensor and every axis attribute that the
validator accepts for its shape, applying the reverse operator twice with
the same axis yields the original tensor. -/
theorem reverse_c6 {α : Type} [Inhabited α] (T : Tensor α) (axis : List Int)
    (hw : wellFormed T)
    (hacc : accepts (inferShape ⟨true, true, .lodTensor, axis,
        T.shape.map (fun e => (e : Int)), true⟩) = true) :
    reverseT (reverseT T axis) axis = T := by
  obtain ⟨sh, d, lod⟩ := T
  simp only [wellFormed] at hw
  simp only [reverseT, Tensor.mk.injEq]
  refine ⟨trivial, ?_, trivial⟩
  rw [reverseData_reverseData]
  have hcg : ∀ p ∈ List.range sh.prod,
      d.getD (flatten sh (flipIndex (axis.map (normAxis sh.length)) 0 sh
        (flipIndex (axis.map (normAxis sh.length)) 0 sh (unflatten sh p)))) default
      = d.getD p default := by
    intro p hp
    rw [List.mem_range] at hp
    rw [flipIndex_flipIndex _ sh _ 0 (validIndex_unflatten sh p hp),
      flatten_unflatten sh p hp]
  rw [List.map_congr_left hcg, ← hw]
  exact map_range_getD d

/-- C6 witness: flipping the 2×2 tensor `[[1,2],[3,4]]` twice along axes
`[0, -1]` returns the original tensor, the axis being accepted by the
validator. -/
theorem reverse_c6_witness :
    reverseT (reverseT (⟨[2, 2], [1, 2, 3, 4], [[1, 1]]⟩ : Tensor Int) [0, -1]) [0, -1]
      = ⟨[2, 2], [1, 2, 3, 4], [[1, 1]]⟩ :=
  reverse_c6 ⟨[2, 2], [1, 2, 3, 4], [[1, 1]]⟩ [0, -1] rfl (by decide)

/-- C7: the kernel output equals the input with indices flipped along the
normalized axis set: the output value at the flipped index equals the input
value at the original index, the per-row metadata is copied unchanged, and
on the concrete shape `[2,2,4]` input `1..16` with axis `[0,2]` the output
is `[[[12,11,10,9],[16,15,14,13]],[[4,3,2,1],[8,7,6,5]]]`. -/
theorem reverse_c7 {α : Type} [Inhabited α] (T : Tensor α) (axis : List Int)
    (i : List Nat) (hw : wellFormed T) (hi : validIndex T.shape i = true) :
    ((reverseT T axis).data.getD
        (flatten T.shape (flipIndex (axis.map (normAxis T.shape.length)) 0 T.shape i))
        default
      = T.data.getD (flatten T.shape i) default)
    ∧ (reverseT T axis).lod = T.lod
    ∧ reverseT (⟨[2, 2, 4],
          [1, 2, 3, 4, 5, 6, 7, 8, 9, 10, 11, 12, 13, 14, 15, 16], []⟩ : Tensor Int)
        [0, 2]
      = ⟨[2, 2, 4], [12, 11, 10, 9, 16, 15, 14, 13, 4, 3, 2, 1, 8, 7, 6, 5], []⟩ := by
  refine ⟨?_, rfl, by decide⟩
  have hv2 := validIndex_flipIndex (axis.map (normAxis T.shape.length)) T.shape i 0 hi
  have hlt := flatten_lt_prod T.shape _ hv2
  show (reverseData T.shape (axis.map (normAxis T.shape.length)) T.data).getD _ default = _
  rw [reverseData_getD _ _ _ _ hlt, unflatten_flatten _ _ hv2,
    flipIndex_flipIndex _ _ _ _ hi]

/-- C7 witness: on the 2×2 tensor with metadata `[[1,1]]` and axis `[1]`,
the kernel copies the metadata unchanged. -/
theorem reverse_c7_witness :
    (reverseT (⟨[2, 2], [1, 2, 3, 4], [[1, 1]]⟩ : Tensor Int) [1]).lod = [[1, 1]] :=
  (reverse_c7 ⟨[2, 2], [1, 2, 3, 4], [[1, 1]]⟩ [1] [0, 0] rfl (by decide)).2.1

/-- C8: for every well-formed dense tensor and disjoint axis lists `A`, `B`
drawn from `{0, …, rank−1}`, reversing first along `A` and then along `B`
equals a single reverse along the symmetric difference of `A` and `B`. -/
theorem reverse_c8 {α : Type} [Inhabited α] (T : Tensor α) (A B : List Int)
    (hw : wellFormed T)
    (hA : ∀ a ∈ A, 0 ≤ a ∧ a < (T.shape.length : Int))
    (hB : ∀ b ∈ B, 0 ≤ b ∧ b < (T.shape.length : Int))
    (hD : ∀ k : Int, ¬(k ∈ A ∧ k ∈ B)) :
    reverseT (reverseT T A) B = reverseT T (symDiff A B) := by
  obtain ⟨sh, d, lod⟩ := T
  have hA0 : ∀ a ∈ A, (0 : Int) ≤ a := fun a ha => (hA a ha).1
  have hB0 : ∀ b ∈ B, (0 : Int) ≤ b := fun b hb => (hB b hb).1
  have hS0 : ∀ x ∈ symDiff A B, (0 : Int) ≤ x := by
    intro x hx
    rcases (mem_symDiff A B x).mp hx with ⟨h1, h2⟩ | ⟨h1, h2⟩
    · exact hA0 x h1
    · exact hB0 x h1
  have hmem : ∀ k : Int, (k ∈ symDiff A B) ↔ (k ∈ A ∨ k ∈ B) := by
    intro k
    rw [mem_symDiff]
    constructor
    · rintro (⟨h1, h2⟩ | ⟨h1, h2⟩)
      · exact Or.inl h1
      · exact Or.inr h1
    · rintro (h1 | h1)
      · exact Or.inl ⟨h1, fun hb => hD k ⟨h1, hb⟩⟩
      · exact Or.inr ⟨h1, fun ha => hD k ⟨ha, h1⟩⟩
  simp only [reverseT, Tensor.mk.injEq]
  refine ⟨trivial, ?_, trivial⟩
  rw [normAxis_map_id sh.length A hA0, normAxis_map_id sh.length B hB0,
    normAxis_map_id sh.length (symDiff A B) hS0]
  rw [reverseData_reverseData]
  unfold reverseData
  apply List.map_congr_left
  intro p hp
  rw [List.mem_range] at hp
  rw [flipIndex_comp A B (symDiff A B) hmem hD sh _ 0 (validIndex_unflatten sh p hp)]

/-- C8 witness: on the 2×2 tensor `[[1,2],[3,4]]`, reversing along `[0]`
then `[1]` equals one reverse along the symmetric difference of `[0]` and
`[1]`. -/
theorem reverse_c8_witness :
    reverseT (reverseT (⟨[2, 2], [1, 2, 3, 4], []⟩ : Tensor Int) [0]) [1]
      = reverseT (⟨[2, 2], [1, 2, 3, 4], []⟩ : Tensor Int) (symDiff [0] [1]) :=
  reverse_c8 ⟨[2, 2], [1, 2, 3, 4], []⟩ [0] [1] rfl (by decide) (by decide) (by simp)

end PaddleReverse
